import Mathlib

/-!
Shallow embedding of the zkdisasm EVM bytecode disassembler
(`zkdisasm/instruction.py` and `zkdisasm/disassembler.py`), together with
theorems checking the design document's claims against it.

Python strings are modelled as `String` / `List Char`, byte streams as
`List Nat` (each element a byte value), `None` as `Option.none`, and a
raised exception as the `Except.error` branch of the result.
-/

namespace ZkDisasm

/-- One decoded EVM instruction, mirroring the fields set by
`Instruction.__init__` in `zkdisasm/instruction.py`: the six metadata
fields, plus `operand` and `pc` which start as `None` and are filled in
during decoding. -/
structure Instruction where
  opcode : Nat
  name : String
  operands : Nat
  pops : Nat
  pushs : Nat
  gas : Nat
  operand : Option Nat
  pc : Option Nat
deriving DecidableEq, Repr

/-- Construction of an `Instruction` as `Instruction.__init__` performs it:
the six metadata arguments are stored and `operand` and `pc` are `None`. -/
def Instruction.mkNew (opcode : Nat) (name : String)
    (operands pops pushs gas : Nat) : Instruction :=
  ⟨opcode, name, operands, pops, pushs, gas, none, none⟩

/-- The `size` property: `1 + self.operands`. -/
def Instruction.size (i : Instruction) : Nat :=
  1 + i.operands

/-- The operand-reading loop inside `Instruction.parse`: repeat `operands`
times `operand <<= 8; operand |= next(bytecode_iter)`.  `next` on an
exhausted iterator raises `StopIteration`, modelled by `none`; otherwise the
accumulated value and the remaining bytes are returned. -/
def parseOperandLoop : Nat → Nat → List Nat → Option (Nat × List Nat)
  | 0, acc, bs => some (acc, bs)
  | _ + 1, _, [] => none
  | n + 1, acc, b :: bs => parseOperandLoop n ((acc <<< 8) ||| b) bs

/-- The method `Instruction.parse`: when `self.operands` is truthy (nonzero)
it runs the operand loop starting from `0` and stores the result in
`self.operand`; otherwise it does nothing.  A `StopIteration` escaping the
loop is the `none` outcome. -/
def Instruction.parse (i : Instruction) (bs : List Nat) :
    Option (Instruction × List Nat) :=
  if i.operands ≠ 0 then
    match parseOperandLoop i.operands 0 bs with
    | none => none
    | some (v, rest) => some ({ i with operand := some v }, rest)
  else
    some (i, bs)

/-- The class `MissingInstruction`: an `Instruction` built with name
`"MISSING"` and zero operands, pops, pushs and gas. -/
def MissingInstruction (opcode : Nat) : Instruction :=
  Instruction.mkNew opcode ("MISSING") 0 0 0 0

/-- One row of the static opcode table: the tuple
`(opcode, name, operands, pops, pushs, gas)` from `zkdisasm/config.py`. -/
structure OpcodeEntry where
  opcode : Nat
  name : String
  operands : Nat
  pops : Nat
  pushs : Nat
  gas : Nat
deriving DecidableEq, Repr

/-- Lookup in `InstructionFactory.config_dict`, which is built by the dict
comprehension `{item[0]: item for item in instruction_table}`: later entries
with the same opcode overwrite earlier ones, hence the search over the
reversed list. -/
def configLookup (table : List OpcodeEntry) (opcode : Nat) : Option OpcodeEntry :=
  table.reverse.find? (fun e => e.opcode == opcode)

/-- The method `InstructionFactory.create`: `Instruction(*config)` when the
opcode is in the table, `MissingInstruction(opcode)` otherwise. -/
def InstructionFactory.create (table : List OpcodeEntry) (opcode : Nat) :
    Instruction :=
  match configLookup table opcode with
  | some c => Instruction.mkNew c.opcode c.name c.operands c.pops c.pushs c.gas
  | none => MissingInstruction opcode

/-- The exceptions that can escape `Disassembler.disassemble`:
`valueError` is the `ValueError` raised by `bytes.fromhex` on a malformed
hex string, and `truncatedOperand` is the error escaping the generator when
`Instruction.parse` hits `StopIteration` mid-operand (Python converts it to
a `RuntimeError` under PEP 479; the spec calls the condition
`TruncatedOperand`). -/
inductive DisasmError where
  | valueError
  | truncatedOperand
deriving DecidableEq, Repr

/-- The method `Disassembler.parse_one`: `next` on an empty stream is caught
and yields `none` (clean end of stream); otherwise the factory builds the
instruction, its operand is parsed from the remaining bytes (an escaping
`StopIteration` becomes the truncation error), and `pc` is assigned. -/
def Disassembler.parse_one (table : List OpcodeEntry) (bs : List Nat)
    (pc : Nat) : Except DisasmError (Option (Instruction × List Nat)) :=
  match bs with
  | [] => .ok none
  | opcode :: rest =>
    match (InstructionFactory.create table opcode).parse rest with
    | none => .error .truncatedOperand
    | some (i, rest2) => .ok (some ({ i with pc := some pc }, rest2))

/-- Fuelled unfolding of the `while True` loop of `Disassembler.parse_all`:
each successful step consumes at least the opcode byte, so any fuel above
the stream length reproduces the loop exactly (proved below in
`parse_all_step`). -/
def parseAllFuel (table : List OpcodeEntry) :
    Nat → Nat → List Nat → Except DisasmError (List Instruction)
  | 0, _, _ => .ok []
  | fuel + 1, pc, bs =>
    match Disassembler.parse_one table bs pc with
    | .error e => .error e
    | .ok none => .ok []
    | .ok (some (i, rest)) =>
      match parseAllFuel table fuel (pc + i.size) rest with
      | .error e => .error e
      | .ok l => .ok (i :: l)

/-- The method `Disassembler.parse_all`: starting from the given `pc`,
repeatedly parse one instruction, advance `pc` by its size and emit it,
until the stream ends (or an error escapes). -/
def Disassembler.parse_all (table : List OpcodeEntry) (pc : Nat)
    (bs : List Nat) : Except DisasmError (List Instruction) :=
  parseAllFuel table (bs.length + 1) pc bs

/-- Numeric value of one hex digit as `bytes.fromhex` accepts it
(`0`–`9`, `a`–`f`, `A`–`F`), `none` for any other character. -/
def hexDigitVal (c : Char) : Option Nat :=
  if '0' ≤ c ∧ c ≤ '9' then some (c.toNat - 48)
  else if 'a' ≤ c ∧ c ≤ 'f' then some (c.toNat - 87)
  else if 'A' ≤ c ∧ c ≤ 'F' then some (c.toNat - 55)
  else none

/-- ASCII whitespace that `bytes.fromhex` skips between byte pairs. -/
def isPySpace (c : Char) : Bool :=
  c = ' ' || c = '\t' || c = '\n' || c = '\r' || c = '\x0b' || c = '\x0c'

/-- Model of Python's `bytes.fromhex`: whitespace may separate byte pairs,
each pair of adjacent hex digits yields one byte (high nibble first), and
anything else — including a trailing lone digit — raises `ValueError`,
modelled by `none`. -/
def fromhex : List Char → Option (List Nat)
  | [] => some []
  | c :: rest =>
    if isPySpace c then fromhex rest
    else
      match rest with
      | [] => none
      | c2 :: rest2 =>
        match hexDigitVal c, hexDigitVal c2 with
        | some hi, some lo => (fromhex rest2).map (fun bs => (16 * hi + lo) :: bs)
        | _, _ => none

/-- The method `Disassembler.disassemble`: `bytes.fromhex(bytecode[2:])` —
the first two characters are dropped, the remainder converted to bytes —
then every instruction produced by `parse_all` is collected into a list. -/
def Disassembler.disassemble (table : List OpcodeEntry) (bytecode : String) :
    Except DisasmError (List Instruction) :=
  match fromhex (bytecode.data.drop 2) with
  | none => .error .valueError
  | some bs => Disassembler.parse_all table 0 bs

/-- Modelled from the spec: the static table `instruction_table` lives in
`zkdisasm/config.py`, which is absent from the sources; only the two entries
that the spec's scenario fixes are modelled here — opcode `0x60` is `PUSH1`
with one operand byte, opcode `0x52` is `MSTORE` with none. -/
def instruction_table : List OpcodeEntry :=
  [⟨0x52, ("MSTORE"), 0, 2, 0, 3⟩, ⟨0x60, ("PUSH1"), 1, 0, 1, 3⟩]

/-- Total size in bytes of a list of instructions — the quantity the spec's
round-trip size property speaks about. -/
def sizeSum (l : List Instruction) : Nat :=
  (l.map Instruction.size).sum

/-- Lowercase hex digit character, as Python's `%x` produces. -/
def hexDigitChar (n : Nat) : Char :=
  if n < 10 then Char.ofNat (48 + n) else Char.ofNat (87 + n)

/-- Fuelled digit extraction for the minimal lowercase hex rendering: most
significant digit first, empty for zero. -/
def hexCharsAux : Nat → Nat → List Char
  | 0, _ => []
  | fuel + 1, n =>
    if n = 0 then [] else hexCharsAux fuel (n / 16) ++ [hexDigitChar (n % 16)]

/-- Minimal lowercase hex rendering of a natural number, `"0"` for zero —
the digits Python's `%x` conversion emits. -/
def hexChars (n : Nat) : List Char :=
  if n = 0 then ['0'] else hexCharsAux n n

/-- Python's `%0Nx` formatting: the minimal hex digits left-padded with
zeros to at least `width` characters. -/
def pyHexPad (width n : Nat) : String :=
  ⟨List.replicate (width - (hexChars n).length) '0' ++ hexChars n⟩

/-- Python's `(name + ' ' * 9)[:9]`: the name padded with nine spaces then
truncated to nine characters. -/
def padName9 (s : String) : String :=
  ⟨(s.data ++ List.replicate 9 ' ').take 9⟩

/-- The method `Instruction.__str__`: pc as `%04x` plus a colon (or `????:`
when pc is unset), a space, the name padded/truncated to nine characters,
and — when `operands` is nonzero — a space and the operand as
`0x%0{operands*2}x`.  Formatting `None` as an operand raises `TypeError` in
Python, modelled by `none`; decoded instructions never hit that case. -/
def Instruction.render (i : Instruction) : Option String :=
  let t1 : String :=
    match i.pc with
    | some p => pyHexPad 4 p ++ (":")
    | none => ("????:")
  let t2 : String := t1 ++ (" ") ++ padName9 i.name
  if i.operands ≠ 0 then
    match i.operand with
    | some v => some (t2 ++ (" 0x") ++ pyHexPad (2 * i.operands) v)
    | none => none
  else
    some t2

theorem shiftLeft_lor_eq_add : ∀ (n a b : Nat), b < 2 ^ n → a <<< n ||| b = a * 2 ^ n + b := by
  intro n
  induction n with
  | zero =>
    intro a b hb
    have hb0 : b = 0 := by omega
    subst hb0
    simp
  | succ n ih =>
    intro a b hb
    have hb2 : b / 2 < 2 ^ n := by
      have h2 : 2 ^ (n + 1) = 2 * 2 ^ n := by ring
      omega
    have hdec := Nat.bit_decide_mod_two_eq_one_shiftRight_one b
    rw [Nat.shiftRight_one] at hdec
    have h1 : a <<< (n + 1) = Nat.bit false (a <<< n) := by
      rw [Nat.bit_val, Nat.shiftLeft_eq, Nat.shiftLeft_eq]
      simp
      ring
    rw [← hdec, h1, Nat.lor_bit]
    rw [ih a (b / 2) hb2]
    rw [Nat.bit_val, Nat.bit_val]
    simp only [Bool.false_or]
    have hto : (decide (b % 2 = 1)).toNat = b % 2 := by
      rcases Nat.mod_two_eq_zero_or_one b with h | h <;> simp [h]
    rw [hto]
    have hpow : 2 ^ (n + 1) = 2 * 2 ^ n := by ring
    rw [hpow]
    ring

theorem parseOperandLoop_spec :
    ∀ (n : Nat) (acc : Nat) (bs : List Nat), n ≤ bs.length →
      (∀ b ∈ bs.take n, b < 256) →
      parseOperandLoop n acc bs =
        some ((bs.take n).foldl (fun a b => a * 256 + b) acc, bs.drop n) := by
  intro n
  induction n with
  | zero => intro acc bs _ _; simp [parseOperandLoop]
  | succ n ih =>
    intro acc bs hlen hsmall
    match bs with
    | [] => simp at hlen
    | b :: bs =>
      have hb : b < 256 := by
        apply hsmall
        simp [List.take]
      have hstep : (acc <<< 8) ||| b = acc * 256 + b := by
        have h256 : (256 : Nat) = 2 ^ 8 := by norm_num
        rw [h256] at hb ⊢
        exact shiftLeft_lor_eq_add 8 acc b hb
      simp only [parseOperandLoop, List.take, List.drop, List.foldl]
      rw [hstep]
      apply ih
      · simpa using hlen
      · intro x hx
        apply hsmall
        simp [List.take, hx]

theorem parseOperandLoop_none :
    ∀ (n : Nat) (acc : Nat) (bs : List Nat), bs.length < n →
      parseOperandLoop n acc bs = none := by
  intro n
  induction n with
  | zero => intro acc bs h; simp at h
  | succ n ih =>
    intro acc bs h
    match bs with
    | [] => rfl
    | b :: bs =>
      simp only [parseOperandLoop]
      apply ih
      simp at h
      omega

theorem parseOperandLoop_length :
    ∀ (n : Nat) (acc : Nat) (bs : List Nat) (v : Nat) (rest : List Nat),
      parseOperandLoop n acc bs = some (v, rest) →
      bs.length = n + rest.length := by
  intro n
  induction n with
  | zero =>
    intro acc bs v rest h
    simp [parseOperandLoop] at h
    simp [h.2]
  | succ n ih =>
    intro acc bs v rest h
    match bs with
    | [] => simp [parseOperandLoop] at h
    | b :: bs =>
      simp only [parseOperandLoop] at h
      have := ih _ _ _ _ h
      simp [this]
      omega

theorem Instruction.parse_length (i : Instruction) (bs : List Nat)
    (j : Instruction) (rest : List Nat) (h : i.parse bs = some (j, rest)) :
    bs.length = i.operands + rest.length ∧ j.operands = i.operands ∧
      j.pc = i.pc ∧ j.name = i.name := by
  rcases Nat.eq_zero_or_pos i.operands with hop | hop
  · rw [Instruction.parse, if_neg (by omega)] at h
    simp only [Option.some.injEq, Prod.mk.injEq] at h
    obtain ⟨h1, h2⟩ := h
    subst h1
    subst h2
    simp [hop]
  · rw [Instruction.parse, if_pos (by omega)] at h
    match hml : parseOperandLoop i.operands 0 bs with
    | none => rw [hml] at h; exact absurd h (by simp)
    | some (v, rest2) =>
      rw [hml] at h
      simp only [Option.some.injEq, Prod.mk.injEq] at h
      obtain ⟨h1, h2⟩ := h
      subst h1
      subst h2
      have hlen := parseOperandLoop_length _ _ _ _ _ hml
      refine ⟨hlen, by simp, by simp, by simp⟩

theorem parse_one_cases (table : List OpcodeEntry) (bs : List Nat) (pc : Nat)
    (i : Instruction) (rest : List Nat)
    (h : Disassembler.parse_one table bs pc = .ok (some (i, rest))) :
    i.pc = some pc ∧ bs.length = i.size + rest.length := by
  match bs with
  | [] => exact absurd h (by simp [Disassembler.parse_one])
  | opcode :: bs0 =>
    rw [Disassembler.parse_one] at h
    match hp : (InstructionFactory.create table opcode).parse bs0 with
    | none => rw [hp] at h; exact absurd h (by simp)
    | some (j, rest2) =>
      rw [hp] at h
      simp only [Except.ok.injEq, Option.some.injEq, Prod.mk.injEq] at h
      obtain ⟨h1, h2⟩ := h
      subst h1
      subst h2
      obtain ⟨hlen, hops, _, _⟩ := Instruction.parse_length _ _ _ _ hp
      refine ⟨by simp, ?_⟩
      simp only [Instruction.size, List.length_cons]
      omega

theorem parseAllFuel_congr (table : List OpcodeEntry) :
    ∀ (f1 f2 pc : Nat) (bs : List Nat), bs.length < f1 → bs.length < f2 →
      parseAllFuel table f1 pc bs = parseAllFuel table f2 pc bs := by
  intro f1
  induction f1 with
  | zero => intro f2 pc bs h1 _; omega
  | succ f1 ih =>
    intro f2 pc bs h1 h2
    match f2 with
    | 0 => omega
    | f2 + 1 =>
      rw [parseAllFuel, parseAllFuel]
      match hone : Disassembler.parse_one table bs pc with
      | .error e => rfl
      | .ok none => rfl
      | .ok (some (i, rest)) =>
        have hlen := (parse_one_cases table bs pc i rest hone).2
        have hsz : 1 ≤ i.size := by simp [Instruction.size]
        show (match parseAllFuel table f1 (pc + i.size) rest with
              | .error e => (.error e : Except DisasmError (List Instruction))
              | .ok l => .ok (i :: l)) =
            (match parseAllFuel table f2 (pc + i.size) rest with
              | .error e => .error e
              | .ok l => .ok (i :: l))
        rw [ih f2 (pc + i.size) rest (by omega) (by omega)]

theorem parse_all_step (table : List OpcodeEntry) (pc : Nat) (bs : List Nat) :
    Disassembler.parse_all table pc bs =
      match Disassembler.parse_one table bs pc with
      | .error e => .error e
      | .ok none => .ok []
      | .ok (some (i, rest)) =>
        match Disassembler.parse_all table (pc + i.size) rest with
        | .error e => .error e
        | .ok l => .ok (i :: l) := by
  rw [Disassembler.parse_all, parseAllFuel]
  match hone : Disassembler.parse_one table bs pc with
  | .error e => rfl
  | .ok none => rfl
  | .ok (some (i, rest)) =>
    have hlen := (parse_one_cases table bs pc i rest hone).2
    have hsz : 1 ≤ i.size := by simp [Instruction.size]
    show (match parseAllFuel table bs.length (pc + i.size) rest with
          | .error e => (.error e : Except DisasmError (List Instruction))
          | .ok l => .ok (i :: l)) =
        (match Disassembler.parse_all table (pc + i.size) rest with
          | .error e => .error e
          | .ok l => .ok (i :: l))
    rw [Disassembler.parse_all,
      parseAllFuel_congr table bs.length (rest.length + 1) (pc + i.size) rest (by omega) (by omega)]

theorem parse_one_ok_none (table : List OpcodeEntry) (bs : List Nat) (pc : Nat)
    (h : Disassembler.parse_one table bs pc = .ok none) : bs = [] := by
  match bs with
  | [] => rfl
  | opcode :: bs0 =>
    rw [Disassembler.parse_one] at h
    match hp : (InstructionFactory.create table opcode).parse bs0 with
    | none => rw [hp] at h; exact absurd h (by simp)
    | some (j, rest2) => rw [hp] at h; exact absurd h (by simp)

theorem parse_all_ok_spec :
    ∀ (l : List Instruction) (table : List OpcodeEntry) (pc : Nat) (bs : List Nat),
      Disassembler.parse_all table pc bs = .ok l →
      bs.length = sizeSum l ∧
        ∀ k (hk : k < l.length), (l.get ⟨k, hk⟩).pc = some (pc + sizeSum (l.take k)) := by
  intro l
  induction l with
  | nil =>
    intro table pc bs h
    rw [parse_all_step] at h
    match hone : Disassembler.parse_one table bs pc with
    | .error e => rw [hone] at h; exact absurd h (by simp)
    | .ok none =>
      have hbs := parse_one_ok_none table bs pc hone
      subst hbs
      simp [sizeSum]
    | .ok (some (i, rest)) =>
      rw [hone] at h
      have h2 : (match Disassembler.parse_all table (pc + i.size) rest with
          | Except.error e => (Except.error e : Except DisasmError (List Instruction))
          | Except.ok l2 => Except.ok (i :: l2)) = Except.ok [] := h
      match hrec : Disassembler.parse_all table (pc + i.size) rest with
      | .error e => rw [hrec] at h2; exact absurd h2 (by simp)
      | .ok l2 => rw [hrec] at h2; exact absurd h2 (by simp)
  | cons i0 l ih =>
    intro table pc bs h
    rw [parse_all_step] at h
    match hone : Disassembler.parse_one table bs pc with
    | .error e => rw [hone] at h; exact absurd h (by simp)
    | .ok none =>
      rw [hone] at h; exact absurd h (by simp)
    | .ok (some (i, rest)) =>
      rw [hone] at h
      have h2 : (match Disassembler.parse_all table (pc + i.size) rest with
          | Except.error e => (Except.error e : Except DisasmError (List Instruction))
          | Except.ok l2 => Except.ok (i :: l2)) = Except.ok (i0 :: l) := h
      match hrec : Disassembler.parse_all table (pc + i.size) rest with
      | .error e => rw [hrec] at h2; exact absurd h2 (by simp)
      | .ok l2 =>
        rw [hrec] at h2
        simp only [Except.ok.injEq, List.cons.injEq] at h2
        obtain ⟨h1, h3⟩ := h2
        subst h1
        subst h3
        obtain ⟨hpc0, hlen⟩ := parse_one_cases table bs pc i rest hone
        obtain ⟨ihlen, ihpc⟩ := ih table (pc + i.size) rest hrec
        constructor
        · simp only [sizeSum, List.map_cons, List.sum_cons] at ihlen ⊢
          omega
        · intro k hk
          match k with
          | 0 => simpa [sizeSum] using hpc0
          | k + 1 =>
            have hk2 : k < l2.length := by simpa using hk
            have hik := ihpc k hk2
            simp only [List.get_cons_succ, List.take_succ_cons] at hik ⊢
            rw [hik]
            simp only [sizeSum, List.map_cons, List.sum_cons, Option.some.injEq]
            omega

theorem sizeSum_take_succ (l : List Instruction) (k : Nat) (hk : k < l.length) :
    sizeSum (l.take (k + 1)) = sizeSum (l.take k) + (l.get ⟨k, hk⟩).size := by
  induction l generalizing k with
  | nil => simp at hk
  | cons a l ih =>
    match k with
    | 0 => simp [sizeSum]
    | k + 1 =>
      have hk2 : k < l.length := by simpa using hk
      simp only [List.take_succ_cons, List.get_cons_succ, sizeSum, List.map_cons,
        List.sum_cons] at ih ⊢
      rw [ih k hk2]
      omega

/-- Claim C6: a byte sequence that decodes without truncation is tiled
exactly — the sizes of the produced instructions sum to the input length. -/
theorem claim_C6 : ∀ (table : List OpcodeEntry) (pc : Nat) (bs : List Nat)
    (l : List Instruction), Disassembler.parse_all table pc bs = .ok l →
    sizeSum l = bs.length := by
  intro table pc bs l h
  exact ((parse_all_ok_spec l table pc bs h).1).symm

theorem claim_C6_witness :
    sizeSum [⟨0x60, ("PUSH1"), 1, 0, 1, 3, some 0x80, some 0⟩,
        ⟨0x60, ("PUSH1"), 1, 0, 1, 3, some 0x40, some 2⟩,
        ⟨0x52, ("MSTORE"), 0, 2, 0, 3, none, some 4⟩] =
      [0x60, 0x80, 0x60, 0x40, 0x52].length :=
  claim_C6 instruction_table 0 [0x60, 0x80, 0x60, 0x40, 0x52] _ (by rfl)

/-- Claim C5: decoded pc values start at 0, are strictly increasing, and each
instruction's pc plus its size is the next instruction's pc. -/
theorem claim_C5 : ∀ (table : List OpcodeEntry) (s : String) (l : List Instruction),
    Disassembler.disassemble table s = .ok l →
    (∀ (h0 : 0 < l.length), (l.get ⟨0, h0⟩).pc = some 0) ∧
    (∀ (k : Nat) (hk : k + 1 < l.length),
      ∃ p q, (l.get ⟨k, by omega⟩).pc = some p ∧ (l.get ⟨k + 1, hk⟩).pc = some q ∧
        q = p + (l.get ⟨k, by omega⟩).size ∧ p < q) := by
  intro table s l h
  rw [Disassembler.disassemble] at h
  match hfh : fromhex (s.data.drop 2) with
  | none => rw [hfh] at h; exact absurd h (by simp)
  | some bs =>
    rw [hfh] at h
    obtain ⟨_, hpc⟩ := parse_all_ok_spec l table 0 bs h
    constructor
    · intro h0
      simpa [sizeSum] using hpc 0 h0
    · intro k hk
      have hk0 : k < l.length := by omega
      refine ⟨0 + sizeSum (l.take k), 0 + sizeSum (l.take (k + 1)), hpc k hk0,
        hpc (k + 1) hk, ?_, ?_⟩
      · rw [sizeSum_take_succ l k hk0]
        omega
      · rw [sizeSum_take_succ l k hk0]
        have : 1 ≤ (l.get ⟨k, hk0⟩).size := by simp [Instruction.size]
        omega

theorem claim_C5_witness :
    (∀ (h0 : 0 < ([⟨0x60, ("PUSH1"), 1, 0, 1, 3, some 0x80, some 0⟩,
        ⟨0x60, ("PUSH1"), 1, 0, 1, 3, some 0x40, some 2⟩,
        ⟨0x52, ("MSTORE"), 0, 2, 0, 3, none, some 4⟩] : List Instruction).length),
      (([⟨0x60, ("PUSH1"), 1, 0, 1, 3, some 0x80, some 0⟩,
        ⟨0x60, ("PUSH1"), 1, 0, 1, 3, some 0x40, some 2⟩,
        ⟨0x52, ("MSTORE"), 0, 2, 0, 3, none, some 4⟩] : List Instruction).get
          ⟨0, h0⟩).pc = some 0) ∧
    (∀ (k : Nat) (hk : k + 1 < ([⟨0x60, ("PUSH1"), 1, 0, 1, 3, some 0x80, some 0⟩,
        ⟨0x60, ("PUSH1"), 1, 0, 1, 3, some 0x40, some 2⟩,
        ⟨0x52, ("MSTORE"), 0, 2, 0, 3, none, some 4⟩] : List Instruction).length),
      ∃ p q, (([⟨0x60, ("PUSH1"), 1, 0, 1, 3, some 0x80, some 0⟩,
        ⟨0x60, ("PUSH1"), 1, 0, 1, 3, some 0x40, some 2⟩,
        ⟨0x52, ("MSTORE"), 0, 2, 0, 3, none, some 4⟩] : List Instruction).get
          ⟨k, by omega⟩).pc = some p ∧
        (([⟨0x60, ("PUSH1"), 1, 0, 1, 3, some 0x80, some 0⟩,
        ⟨0x60, ("PUSH1"), 1, 0, 1, 3, some 0x40, some 2⟩,
        ⟨0x52, ("MSTORE"), 0, 2, 0, 3, none, some 4⟩] : List Instruction).get
          ⟨k + 1, hk⟩).pc = some q ∧
        q = p + (([⟨0x60, ("PUSH1"), 1, 0, 1, 3, some 0x80, some 0⟩,
        ⟨0x60, ("PUSH1"), 1, 0, 1, 3, some 0x40, some 2⟩,
        ⟨0x52, ("MSTORE"), 0, 2, 0, 3, none, some 4⟩] : List Instruction).get
          ⟨k, by omega⟩).size ∧ p < q) :=
  claim_C5 instruction_table "0x6080604052" _ (by rfl)

/-- Claim C3: operand parsing consumes exactly the declared operand bytes in
big-endian order, and consumes nothing when no operand bytes are declared. -/
theorem claim_C3 :
    (∀ (i : Instruction) (bs : List Nat), i.operands = 0 →
      i.parse bs = some (i, bs)) ∧
    (∀ (i : Instruction) (bs : List Nat), i.operands ≠ 0 →
      i.operands ≤ bs.length → (∀ b ∈ bs.take i.operands, b < 256) →
      i.parse bs =
        some ({ i with
            operand := some ((bs.take i.operands).foldl (fun a b => a * 256 + b) 0) },
          bs.drop i.operands)) ∧
    (∀ (i : Instruction) (b1 b2 : Nat) (rest : List Nat), i.operands = 2 →
      b1 < 256 → b2 < 256 →
      i.parse (b1 :: b2 :: rest) =
        some ({ i with operand := some (b1 * 256 + b2) }, rest)) := by
  refine ⟨?_, ?_, ?_⟩
  · intro i bs hop
    rw [Instruction.parse, if_neg (by omega)]
  · intro i bs hop hlen hsmall
    rw [Instruction.parse, if_pos hop, parseOperandLoop_spec i.operands 0 bs hlen hsmall]
  · intro i b1 b2 rest hop hb1 hb2
    rw [Instruction.parse, if_pos (by omega), hop]
    have h1 : (0 : Nat) <<< 8 ||| b1 = b1 := by
      rw [Nat.zero_shiftLeft]
      exact Nat.zero_or b1
    have h2 : b1 <<< 8 ||| b2 = b1 * 256 + b2 := by
      have h256 : (256 : Nat) = 2 ^ 8 := by norm_num
      rw [h256] at hb2 ⊢
      exact shiftLeft_lor_eq_add 8 b1 b2 hb2
    simp only [parseOperandLoop, h1, h2]

theorem claim_C3_witness :
    ((⟨0x61, ("PUSH2"), 2, 0, 1, 3, none, none⟩ : Instruction).parse [1, 2, 9] =
      some (⟨0x61, ("PUSH2"), 2, 0, 1, 3, some 0x0102, none⟩, [9])) ∧
    ((⟨0x52, ("MSTORE"), 0, 2, 0, 3, none, none⟩ : Instruction).parse [1, 2] =
      some (⟨0x52, ("MSTORE"), 0, 2, 0, 3, none, none⟩, [1, 2])) :=
  ⟨claim_C3.2.2 ⟨0x61, ("PUSH2"), 2, 0, 1, 3, none, none⟩ 1 2 [9] rfl
      (by norm_num) (by norm_num),
    claim_C3.1 ⟨0x52, ("MSTORE"), 0, 2, 0, 3, none, none⟩ [1, 2] rfl⟩

/-- Claim C9: an exhausted stream between instructions ends the sequence
cleanly, and the empty bytecode string decodes to the empty list. -/
theorem claim_C9 :
    (∀ table : List OpcodeEntry, Disassembler.disassemble table "0x" = .ok []) ∧
    (∀ (table : List OpcodeEntry) (pc : Nat),
      Disassembler.parse_one table [] pc = .ok none) ∧
    (∀ (table : List OpcodeEntry) (pc : Nat),
      Disassembler.parse_all table pc [] = .ok []) :=
  ⟨fun _ => rfl, fun _ _ => rfl, fun _ _ => rfl⟩

theorem claim_C9_witness : Disassembler.disassemble instruction_table "0x" = .ok [] :=
  claim_C9.1 instruction_table

/-- Claim C1: a stream ending before the declared operand bytes are available
makes the decode pass fail with the truncation error, which propagates out of
`disassemble`, so the caller receives no instruction list. -/
theorem claim_C1 :
    (∀ (table : List OpcodeEntry) (opcode : Nat) (rest : List Nat) (pc : Nat),
      rest.length < (InstructionFactory.create table opcode).operands →
      Disassembler.parse_all table pc (opcode :: rest) = .error .truncatedOperand) ∧
    (∀ (table : List OpcodeEntry) (s : String) (bs : List Nat) (e : DisasmError),
      fromhex (s.data.drop 2) = some bs →
      Disassembler.parse_all table 0 bs = .error e →
      Disassembler.disassemble table s = .error e) ∧
    (Disassembler.disassemble instruction_table "0x60" = .error .truncatedOperand) ∧
    (Disassembler.disassemble instruction_table "0x5260" = .error .truncatedOperand) := by
  refine ⟨?_, ?_, by rfl, by rfl⟩
  · intro table opcode rest pc hlt
    rw [parse_all_step]
    have hone : Disassembler.parse_one table (opcode :: rest) pc = .error .truncatedOperand := by
      rw [Disassembler.parse_one, Instruction.parse, if_pos (by omega),
        parseOperandLoop_none _ 0 rest hlt]
    rw [hone]
  · intro table s bs e hfh hpa
    rw [Disassembler.disassemble, hfh]
    exact hpa

theorem claim_C1_witness :
    Disassembler.parse_all instruction_table 0 [0x60] = .error .truncatedOperand :=
  claim_C1.1 instruction_table 0x60 [] 0 (by decide)

/-- Claim C7: an opcode absent from the table decodes to the MISSING sentinel
(raw opcode, name MISSING, zeroed metadata, size 1) and decoding continues
with the following byte. -/
theorem claim_C7 : ∀ (table : List OpcodeEntry) (opcode : Nat),
    configLookup table opcode = none →
    InstructionFactory.create table opcode =
      (⟨opcode, ("MISSING"), 0, 0, 0, 0, none, none⟩ : Instruction) ∧
    (InstructionFactory.create table opcode).size = 1 ∧
    ∀ (rest : List Nat) (pc : Nat),
      Disassembler.parse_all table pc (opcode :: rest) =
        (Disassembler.parse_all table (pc + 1) rest).map
          (fun l => (⟨opcode, ("MISSING"), 0, 0, 0, 0, none, some pc⟩ : Instruction) :: l) := by
  intro table opcode hnone
  have hcr : InstructionFactory.create table opcode =
      (⟨opcode, ("MISSING"), 0, 0, 0, 0, none, none⟩ : Instruction) := by
    rw [InstructionFactory.create, hnone]
    rfl
  refine ⟨hcr, by rw [hcr]; rfl, ?_⟩
  intro rest pc
  rw [parse_all_step]
  have hone : Disassembler.parse_one table (opcode :: rest) pc =
      .ok (some ((⟨opcode, ("MISSING"), 0, 0, 0, 0, none, some pc⟩ : Instruction), rest)) := by
    rw [Disassembler.parse_one, hcr, Instruction.parse, if_neg (by simp)]
  rw [hone]
  show (match Disassembler.parse_all table
        (pc + (⟨opcode, ("MISSING"), 0, 0, 0, 0, none, some pc⟩ : Instruction).size)
        rest with
      | Except.error e => (Except.error e : Except DisasmError (List Instruction))
      | Except.ok l =>
        Except.ok ((⟨opcode, ("MISSING"), 0, 0, 0, 0, none, some pc⟩ : Instruction) :: l)) = _
  have hsz : (⟨opcode, ("MISSING"), 0, 0, 0, 0, none, some pc⟩ : Instruction).size = 1 := rfl
  rw [hsz]
  match hrec : Disassembler.parse_all table (pc + 1) rest with
  | .error e => rfl
  | .ok l2 => rfl

theorem claim_C7_witness :
    Disassembler.parse_all instruction_table 0 [0xfe, 0x52] =
      (Disassembler.parse_all instruction_table 1 [0x52]).map
        (fun l => (⟨0xfe, ("MISSING"), 0, 0, 0, 0, none, some 0⟩ : Instruction) :: l) :=
  (claim_C7 instruction_table 0xfe (by rfl)).2.2 [0x52] 0

/-- Claim C10: the first two characters of the input are never inspected —
any two length-two prefixes give identical results. -/
theorem claim_C10 : ∀ (table : List OpcodeEntry) (p1 p2 t : String),
    p1.length = 2 → p2.length = 2 →
    Disassembler.disassemble table (p1 ++ t) = Disassembler.disassemble table (p2 ++ t) := by
  intro table p1 p2 t h1 h2
  have e1 : (p1 ++ t).data.drop 2 = t.data := by
    rw [String.data_append, ← show p1.data.length = 2 from h1, List.drop_left]
  have e2 : (p2 ++ t).data.drop 2 = t.data := by
    rw [String.data_append, ← show p2.data.length = 2 from h2, List.drop_left]
  rw [Disassembler.disassemble, Disassembler.disassemble, e1, e2]

theorem claim_C10_witness :
    Disassembler.disassemble instruction_table ("0x" ++ "6080604052") =
      Disassembler.disassemble instruction_table ("zz" ++ "6080604052") :=
  claim_C10 instruction_table "0x" "zz" "6080604052" rfl rfl

/-- Claim C4 (scenario): the preamble `0x6080604052` decodes to PUSH1 0x80 at
pc 0, PUSH1 0x40 at pc 2 and MSTORE at pc 4. -/
theorem claim_C4 :
    (Disassembler.disassemble instruction_table "0x6080604052").map
        (List.map (fun i => (i.pc, i.name, i.operand))) =
      .ok [(some 0x00, ("PUSH1"), some 0x80), (some 0x02, ("PUSH1"), some 0x40),
        (some 0x04, ("MSTORE"), none)] := by
  rfl

/-- Claim C2 counterexample: an input that does not start with `0x` is not
rejected — the first two characters are dropped unchecked and decoding
succeeds. -/
theorem claim_C2_counterexample :
    Disassembler.disassemble instruction_table "zz6080604052" =
      .ok [⟨0x60, ("PUSH1"), 1, 0, 1, 3, some 0x80, some 0⟩,
        ⟨0x60, ("PUSH1"), 1, 0, 1, 3, some 0x40, some 2⟩,
        ⟨0x52, ("MSTORE"), 0, 2, 0, 3, none, some 4⟩] := by
  rfl

theorem hexDigitVal_not_space (c : Char) (h : (hexDigitVal c).isSome) :
    isPySpace c = false := by
  by_contra hs
  simp only [Bool.not_eq_false] at hs
  rw [isPySpace] at hs
  simp only [Bool.or_eq_true, decide_eq_true_eq] at hs
  rcases hs with ((((h1 | h1) | h1) | h1) | h1) | h1 <;>
    (subst h1; simp [hexDigitVal] at h)

theorem fromhex_total : ∀ (n : Nat) (l : List Char), l.length ≤ n →
    (∀ c ∈ l, (hexDigitVal c).isSome) → l.length % 2 = 0 →
    ∃ bs, fromhex l = some bs ∧ 2 * bs.length = l.length := by
  intro n
  induction n with
  | zero =>
    intro l hn _ _
    match l with
    | [] => exact ⟨[], rfl, rfl⟩
    | c :: _ => simp at hn
  | succ n ih =>
    intro l hn hhex hev
    match l with
    | [] => exact ⟨[], rfl, rfl⟩
    | [c] => simp at hev
    | c1 :: c2 :: rest =>
      have h1 : (hexDigitVal c1).isSome := hhex c1 (by simp)
      have h2 : (hexDigitVal c2).isSome := hhex c2 (by simp)
      obtain ⟨v1, hv1⟩ := Option.isSome_iff_exists.mp h1
      obtain ⟨v2, hv2⟩ := Option.isSome_iff_exists.mp h2
      obtain ⟨bs, hbs, hlen⟩ := ih rest (by simp at hn ⊢; omega)
        (fun c hc => hhex c (by simp [hc])) (by simp at hev ⊢; omega)
      refine ⟨(16 * v1 + v2) :: bs, ?_, by simp [← hlen]; omega⟩
      rw [fromhex, if_neg ?hns]
      case hns =>
        rw [hexDigitVal_not_space c1 h1]
        simp
      rw [hv1, hv2, hbs]
      rfl

/-- Claim C2 amended: `disassemble` drops the first two characters of its
input unchecked (whatever they are); the remainder is hex-decoded, a
`ValueError` (not a dedicated MalformedHex) escaping before any decoding when
it is not valid even-length hex, and any well-formed `0x`-prefixed even-length
hex string is stripped of its first two characters and converted to the
corresponding bytes. -/
theorem claim_C2_amended :
    (∀ (table : List OpcodeEntry) (s : String),
      fromhex (s.data.drop 2) = none →
      Disassembler.disassemble table s = .error .valueError) ∧
    (∀ (table : List OpcodeEntry) (s : String) (bs : List Nat),
      fromhex (s.data.drop 2) = some bs →
      Disassembler.disassemble table s = Disassembler.parse_all table 0 bs) ∧
    (∀ t : String, ("0x" ++ t).data.drop 2 = t.data) ∧
    (∀ l : List Char, (∀ c ∈ l, (hexDigitVal c).isSome) → l.length % 2 = 0 →
      ∃ bs, fromhex l = some bs ∧ 2 * bs.length = l.length) ∧
    (fromhex ("6080604052".data) = some [0x60, 0x80, 0x60, 0x40, 0x52]) := by
  refine ⟨?_, ?_, ?_, ?_, by rfl⟩
  · intro table s hfh
    rw [Disassembler.disassemble, hfh]
  · intro table s bs hfh
    rw [Disassembler.disassemble, hfh]
  · intro t
    rw [String.data_append]
    rfl
  · intro l hhex hev
    exact fromhex_total l.length l (le_refl _) hhex hev

theorem claim_C2_amended_witness :
    Disassembler.disassemble instruction_table "0x6080604052" =
      Disassembler.parse_all instruction_table 0 [0x60, 0x80, 0x60, 0x40, 0x52] :=
  claim_C2_amended.2.1 instruction_table "0x6080604052" [0x60, 0x80, 0x60, 0x40, 0x52] (by rfl)

theorem hexCharsAux_congr : ∀ (f1 f2 n : Nat), n ≤ f1 → n ≤ f2 →
    hexCharsAux f1 n = hexCharsAux f2 n := by
  intro f1
  induction f1 with
  | zero =>
    intro f2 n h1 _
    have hn : n = 0 := by omega
    subst hn
    match f2 with
    | 0 => rfl
    | f2 + 1 => rfl
  | succ f1 ih =>
    intro f2 n h1 h2
    by_cases hn : n = 0
    · subst hn
      match f2 with
      | 0 => rfl
      | f2 + 1 => rfl
    · match f2 with
      | 0 => omega
      | f2 + 1 =>
        rw [hexCharsAux, hexCharsAux, if_neg hn, if_neg hn]
        have hd : n / 16 < n := Nat.div_lt_self (by omega) (by omega)
        rw [ih f2 (n / 16) (by omega) (by omega)]

theorem hexCharsAux_length : ∀ (w f n : Nat), n ≤ f → n < 16 ^ w →
    (hexCharsAux f n).length ≤ w := by
  intro w
  induction w with
  | zero =>
    intro f n hf hw
    have hn : n = 0 := by simpa using hw
    subst hn
    match f with
    | 0 => simp [hexCharsAux]
    | f + 1 => simp [hexCharsAux]
  | succ w ih =>
    intro f n hf hw
    by_cases hn : n = 0
    · subst hn
      match f with
      | 0 => simp [hexCharsAux]
      | f + 1 => simp [hexCharsAux]
    · match f with
      | 0 => omega
      | f + 1 =>
        rw [hexCharsAux, if_neg hn]
        have hd : n / 16 < n := Nat.div_lt_self (by omega) (by omega)
        have hdw : n / 16 < 16 ^ w := by
          rw [Nat.div_lt_iff_lt_mul (by norm_num : (0 : Nat) < 16)]
          calc n < 16 ^ (w + 1) := hw
            _ = 16 ^ w * 16 := by ring
        have := ih f (n / 16) (by omega) hdw
        simp only [List.length_append, List.length_cons, List.length_nil]
        omega

theorem hexChars_length_le (w n : Nat) (hw : 0 < w) (hn : n < 16 ^ w) :
    (hexChars n).length ≤ w := by
  rw [hexChars]
  by_cases h0 : n = 0
  · rw [if_pos h0]
    simpa using hw
  · rw [if_neg h0]
    exact hexCharsAux_length w n n (le_refl n) hn

theorem pyHexPad_length (w n : Nat) (hw : 0 < w) (hn : n < 16 ^ w) :
    (pyHexPad w n).length = w := by
  have hle := hexChars_length_le w n hw hn
  show (List.replicate (w - (hexChars n).length) '0' ++ hexChars n).length = w
  simp only [List.length_append, List.length_replicate]
  omega

theorem padName9_length (s : String) : (padName9 s).length = 9 := by
  show ((s.data ++ List.replicate 9 ' ').take 9).length = 9
  simp only [List.length_take, List.length_append, List.length_replicate]
  omega

/-- Claim C8: the rendered text is the 4-hex-digit zero-padded pc (or `????`
when unset) and a colon, the name padded/truncated to nine characters, and —
only when an operand is present — a `0x`-prefixed zero-padded operand of
exactly `2 * operands` hex digits. -/
theorem claim_C8 :
    (∀ (i : Instruction) (p v : Nat), i.pc = some p → p < 65536 →
      i.operands ≠ 0 → i.operand = some v → v < 256 ^ i.operands →
      ∃ s, i.render = some s ∧
        s.data = (pyHexPad 4 p).data ++ [':', ' '] ++ (padName9 i.name).data ++
          [' ', '0', 'x'] ++ (pyHexPad (2 * i.operands) v).data ∧
        (pyHexPad 4 p).length = 4 ∧ (padName9 i.name).length = 9 ∧
        (pyHexPad (2 * i.operands) v).length = 2 * i.operands) ∧
    (∀ (i : Instruction) (p : Nat), i.pc = some p → p < 65536 → i.operands = 0 →
      ∃ s, i.render = some s ∧
        s.data = (pyHexPad 4 p).data ++ [':', ' '] ++ (padName9 i.name).data ∧
        (pyHexPad 4 p).length = 4 ∧ (padName9 i.name).length = 9) ∧
    (∀ i : Instruction, i.pc = none → i.operands = 0 →
      ∃ s, i.render = some s ∧
        s.data = ['?', '?', '?', '?', ':', ' '] ++ (padName9 i.name).data) ∧
    ((⟨0x60, ("PUSH1"), 1, 0, 1, 3, some 0x80, some 0x60⟩ : Instruction).render =
      some ("0060: PUSH1     0x80")) := by
  have h164 : (16 : Nat) ^ 4 = 65536 := by norm_num
  refine ⟨?_, ?_, ?_, by rfl⟩
  · intro i p v hpc hp hop hov hv
    have hvw : v < 16 ^ (2 * i.operands) := by
      have he : (16 : Nat) ^ (2 * i.operands) = 256 ^ i.operands := by
        rw [pow_mul]
        norm_num
      rw [he]
      exact hv
    have hrend : i.render =
        some ((pyHexPad 4 p ++ (":")) ++ (" ") ++ padName9 i.name ++ (" 0x") ++
          pyHexPad (2 * i.operands) v) := by
      rw [Instruction.render, hpc]
      simp only
      rw [if_pos hop, hov]
    refine ⟨_, hrend, ?_, pyHexPad_length 4 p (by norm_num) (by rw [h164]; exact hp),
      padName9_length i.name, pyHexPad_length (2 * i.operands) v (by omega) hvw⟩
    simp [String.data_append, List.append_assoc]
  · intro i p hpc hp hop
    have hrend : i.render = some ((pyHexPad 4 p ++ (":")) ++ (" ") ++ padName9 i.name) := by
      rw [Instruction.render, hpc]
      simp only
      rw [if_neg (by omega)]
    refine ⟨_, hrend, ?_, pyHexPad_length 4 p (by norm_num) (by rw [h164]; exact hp),
      padName9_length i.name⟩
    simp [String.data_append, List.append_assoc]
  · intro i hpc hop
    have hrend : i.render = some (("????:") ++ (" ") ++ padName9 i.name) := by
      rw [Instruction.render, hpc]
      simp only
      rw [if_neg (by omega)]
    refine ⟨_, hrend, ?_⟩
    simp [String.data_append, List.append_assoc]

theorem claim_C8_witness :
    ∃ s, (⟨0x60, ("PUSH1"), 1, 0, 1, 3, some 0x80, some 0x60⟩ : Instruction).render =
        some s ∧
      s.data = (pyHexPad 4 0x60).data ++ [':', ' '] ++
        (padName9 ("PUSH1")).data ++ [' ', '0', 'x'] ++ (pyHexPad 2 0x80).data ∧
      (pyHexPad 4 0x60).length = 4 ∧ (padName9 ("PUSH1")).length = 9 ∧
      (pyHexPad 2 0x80).length = 2 :=
  claim_C8.1 ⟨0x60, ("PUSH1"), 1, 0, 1, 3, some 0x80, some 0x60⟩ 0x60 0x80 rfl
    (by norm_num) (by norm_num) rfl (by norm_num)

end ZkDisasm
